import Mathlib

/-!
Shallow embedding of the webauthn-rs device-catalog tool and the
attestation-ca registry.

Sources embedded:
  * `device-catalog-tool/src/proto.rs` — the enrichment record types.
  * `device-catalog-tool/src/enrichment.rs` — the reconciliation engine
    (`EnrichedMds::try_from`), the quirk projection (`Into<Quirks>`), and
    the authority projection (`Into<Mds>`).
  * `attestation-ca/src/lib.rs` — `AttestationCaList::insert` and the
    `FromIterator<(X509, Uuid)>` construction.

Modelling conventions: AAGUIDs (128-bit UUIDs) are `Nat`; opaque
certificate bytes (`Base64UrlSafeData`) on the catalog side are `Nat`;
quirk tags are `Nat`; `BTreeSet` values are `Finset Nat`; `BTreeMap`
iteration is ascending-key iteration, modelled with an insertion sort
over the deduplicated key list.  Fallible Rust paths (`Result`) become
`Except Unit`; a Rust panic (`unwrap`) becomes `Option.none`.
-/

deriving instance DecidableEq for Except

/-- One upstream FIDO MDS fido2 entry, as consumed by the engine:
`aaguid`, `description`, `attestation_root_certificates`. -/
structure FidoDev where
  aaguid : Nat
  description : String
  attestation_root_certificates : List Nat
deriving DecidableEq

/-- `proto.rs` `Sku`: a SKU carries a list of signing CAs. -/
structure Sku where
  attestation_cas : List Nat
deriving DecidableEq

/-- `proto.rs` `FidoMdsLink`: how a local record links to the MDS. -/
inductive FidoMdsLink where
  | Extend
  | Clone
deriving DecidableEq

/-- `proto.rs` `Device`: one local enrichment record. -/
structure Device where
  aaguid : Nat
  mds_link : FidoMdsLink
  display_name : String
  quirks : Finset Nat
  skus : List Sku
  images : List String
deriving DecidableEq

/-- `enrichment.rs` `EnrichedDevice`: the merge output record. -/
structure EnrichedDevice where
  aaguid : Nat
  display_name : String
  quirks : Finset Nat
  ca : List Nat
deriving DecidableEq

/-- The hard-coded allow-list filter of `EnrichedMds::try_from`
(`enrichment.rs` lines 191–198, the "HACK" filter): only these four
AAGUIDs survive into the working key set.  The four numerals are the
128-bit values of the UUID literals in the source. -/
def allowedHack (a : Nat) : Bool :=
  a == 0xc39efba6fcf44c3e828bfc4a6115a0ff ||
  a == 0xab32f0c62239afbbc470d2ef4e254db7 ||
  a == 0x833b721aff5f4d00bb2ebdda3ec01e29 ||
  a == 0x54d9fee8e62142918b187157b99c5bec

/-- The feed index bucket for one AAGUID: `fido_map` is built by pushing
every feed device onto the entry of its aaguid, so the bucket is the
subsequence of feed devices with that aaguid, in feed order. -/
def feedFor (fds : List FidoDev) (a : Nat) : List FidoDev :=
  fds.filter (fun f => f.aaguid == a)

/-- The enrichment index bucket for one AAGUID (`enrich_map`), likewise
the subsequence of local records with that aaguid, in dataset order. -/
def enrichFor (eds : List Device) (a : Nat) : List Device :=
  eds.filter (fun d => d.aaguid == a)

/-- The working key set (`aaguid_set`): keys of the feed index chained
with keys of the enrichment index, filtered by the hard-coded
allow-list, collected into a `BTreeSet` — i.e. the deduplicated union
in ascending order. -/
def aaguidSet (fds : List FidoDev) (eds : List Device) : List Nat :=
  (((fds.map (fun f => f.aaguid)) ++ (eds.map (fun d => d.aaguid))).filter
    allowedHack).dedup.insertionSort (· ≤ ·)

/-- The body of the `(Some(fdevs), Some(edevs))` per-record match:
`Extend` takes aaguid and display name from the feed device and quirks
from the local record; `Clone` takes aaguid and display name from the
local record; both take the CA list from the feed device. -/
def mergeRecord (fdev : FidoDev) (edev : Device) : EnrichedDevice :=
  match edev.mds_link with
  | .Extend =>
    { aaguid := fdev.aaguid
      display_name := fdev.description
      quirks := edev.quirks
      ca := fdev.attestation_root_certificates }
  | .Clone =>
    { aaguid := edev.aaguid
      display_name := edev.display_name
      quirks := edev.quirks
      ca := fdev.attestation_root_certificates }

/-- The `(Some(fdevs), None)` arm: a feed-only device becomes an
enriched device with the feed identity, no quirks, and the feed CAs. -/
def feedOnly (fdev : FidoDev) : EnrichedDevice :=
  { aaguid := fdev.aaguid
    display_name := fdev.description
    quirks := ∅
    ca := fdev.attestation_root_certificates }

/-- The `(None, Some(edevs))` arm: an enrichment-only record keeps its
own identity and quirks, and gathers CAs by flattening its SKUs. -/
def enrichOnly (edev : Device) : EnrichedDevice :=
  { aaguid := edev.aaguid
    display_name := edev.display_name
    quirks := edev.quirks
    ca := edev.skus.flatMap (fun sku => sku.attestation_cas) }

/-- One iteration of the `for aaguid in aaguid_set` loop of
`EnrichedMds::try_from`: the four-way match on presence in the two
indexes, with the `fdevs.len() != 1` duplicate check in the two arms
that consult the feed. -/
def processAaguid (fds : List FidoDev) (eds : List Device) (a : Nat) :
    Except Unit (List EnrichedDevice) :=
  match feedFor fds a, enrichFor eds a with
  | [], [] => .ok []
  | [], edev :: edevs => .ok ((edev :: edevs).map enrichOnly)
  | fdev :: fdevs, [] =>
    if fdevs = [] then .ok [feedOnly fdev] else .error ()
  | fdev :: fdevs, edev :: edevs =>
    if fdevs = [] then .ok ((edev :: edevs).map (mergeRecord fdev))
    else .error ()

/-- The loop over the (ascending) working key set, accumulating pushed
devices and aborting the whole pass on the first error. -/
def reconcileAaguids (fds : List FidoDev) (eds : List Device) :
    List Nat → Except Unit (List EnrichedDevice)
  | [] => .ok []
  | a :: rest =>
    match processAaguid fds eds a with
    | .error e => .error e
    | .ok ds =>
      match reconcileAaguids fds eds rest with
      | .error e => .error e
      | .ok rs => .ok (ds ++ rs)

/-- `EnrichedMds::try_from((&FidoMds, &Enrichment))`: build both
indexes, form the filtered key union, and process each key. -/
def reconcileDevices (fds : List FidoDev) (eds : List Device) :
    Except Unit (List EnrichedDevice) :=
  reconcileAaguids fds eds (aaguidSet fds eds)

/-- One pass of the `Into<Quirks> for &Enrichment` loop, with the map
threaded explicitly: a device with no quirks is skipped; otherwise the
entry for its aaguid is created if absent and extended (set union) with
the device's quirks. -/
def quirksRun : List Device → (Nat → Option (Finset Nat)) → (Nat → Option (Finset Nat))
  | [], m => m
  | d :: rest, m =>
    if d.quirks = ∅ then quirksRun rest m
    else
      quirksRun rest (fun x =>
        if x = d.aaguid then some (((m d.aaguid).getD ∅) ∪ d.quirks) else m x)

/-- The quirks map produced from an enrichment device list, read at one
AAGUID (`Into<Quirks> for &Enrichment`, starting from the empty map). -/
def quirksGet (devs : List Device) (a : Nat) : Option (Finset Nat) :=
  quirksRun devs (fun _ => none) a

/-- Specification-side helper: the union of the quirk sets of the
devices in the list whose aaguid is `a`. -/
def unionQ (a : Nat) : List Device → Finset Nat
  | [] => ∅
  | d :: rest => (if d.aaguid = a then d.quirks else ∅) ∪ unionQ a rest

/-- `device_statements` `Sku`: one catalog SKU entry. -/
structure MdsSku where
  aaguid : Nat
  display_name : String
deriving DecidableEq

/-- `device_statements` `Authority`: one CA and the SKUs it vouches for. -/
structure MdsAuthority where
  ca : Nat
  skus : List MdsSku
deriving DecidableEq

/-- The SKU entry built from an enriched device in `Into<Mds>`. -/
def skuOf (d : EnrichedDevice) : MdsSku :=
  { aaguid := d.aaguid
    display_name := d.display_name }

/-- The SKU list accumulated in `work_map` under one CA: for each device
in order, one copy of its SKU entry per occurrence of the CA in the
device's `ca` list. -/
def skusFor (devs : List EnrichedDevice) (c : Nat) : List MdsSku :=
  devs.flatMap (fun d => (d.ca.filter (fun x => x == c)).map (fun _ => skuOf d))

/-- The key set of `work_map`: the distinct CAs occurring in any
device's CA list. -/
def workMapKeys (devs : List EnrichedDevice) : List Nat :=
  (devs.flatMap (fun d => d.ca)).dedup

/-- `Into<Mds> for &EnrichedMds`: the authority projection.  The Rust
code drains a `HashMap` with `into_iter`, whose key order is
unspecified (seeded per process); the enumeration order of the keys is
therefore passed as a parameter, to be constrained to a permutation of
the key set. -/
def intoMds (order : List Nat) (devs : List EnrichedDevice) : List MdsAuthority :=
  order.map (fun c => { ca := c, skus := skusFor devs c })

/-- `attestation-ca` `AttestationCa`: a trust-anchor certificate and
its AAGUID allow-list.  The certificate type is kept opaque. -/
structure AttestationCa (Cert : Type) where
  ca : Cert
  aaguids : Finset Nat
deriving DecidableEq

/-- `AttestationCa::get_kid`: digest the certificate.  The digest is an
external crypto primitive, passed in as a fallible function. -/
def AttestationCa.get_kid {Cert Kid : Type} (digest : Cert → Option Kid)
    (a : AttestationCa Cert) : Option Kid :=
  digest a.ca

/-- Lookup in the association-list model of `BTreeMap`. -/
def lookupK {Kid α : Type} [DecidableEq Kid] (k : Kid) : List (Kid × α) → Option α
  | [] => none
  | (k₁, v) :: rest => if k = k₁ then some v else lookupK k rest

/-- `BTreeMap::insert`: store `v` under `k`, returning the displaced
previous value (if any) together with the updated map. -/
def mapInsert {Kid α : Type} [DecidableEq Kid] (k : Kid) (v : α) :
    List (Kid × α) → Option α × List (Kid × α)
  | [] => (none, [(k, v)])
  | (k₁, v₁) :: rest =>
    if k = k₁ then (some v₁, (k, v) :: rest)
    else
      let r := mapInsert k v rest
      (r.1, (k₁, v₁) :: r.2)

/-- `AttestationCaList::insert`: digest the CA (surfacing a digest
failure as a recoverable error), then insert/replace in the map and
return the displaced entry. -/
def registerCa {Cert Kid : Type} [DecidableEq Kid] (digest : Cert → Option Kid)
    (cas : List (Kid × AttestationCa Cert)) (att_ca : AttestationCa Cert) :
    Except Unit (Option (AttestationCa Cert) × List (Kid × AttestationCa Cert)) :=
  match AttestationCa.get_kid digest att_ca with
  | none => .error ()
  | some kid => .ok (mapInsert kid att_ca cas)

/-- Update the entry under `kid` by adding one AAGUID to its allow-list
(the `cas.get_mut(kid) … aaguids.insert(aaguid)` branch). -/
def updateAaguids {Cert Kid : Type} [DecidableEq Kid] (kid : Kid) (g : Nat) :
    List (Kid × AttestationCa Cert) → List (Kid × AttestationCa Cert)
  | [] => []
  | (k₁, v) :: rest =>
    if kid = k₁ then (k₁, { ca := v.ca, aaguids := insert g v.aaguids }) :: rest
    else (k₁, v) :: updateAaguids kid g rest

/-- The loop body of `FromIterator<(X509, Uuid)> for AttestationCaList`:
digest each certificate (`unwrap` — a failure is a panic, modelled as
`none`); on an unseen digest insert a fresh entry with a singleton
allow-list, otherwise add the AAGUID to the existing entry. -/
def fromIterGo {Cert Kid : Type} [DecidableEq Kid] (digest : Cert → Option Kid) :
    List (Cert × Nat) → List (Kid × AttestationCa Cert) →
    Option (List (Kid × AttestationCa Cert))
  | [], cas => some cas
  | (c, g) :: rest, cas =>
    match digest c with
    | none => none
    | some kid =>
      if (lookupK kid cas).isNone then
        fromIterGo digest rest (cas ++ [(kid, { ca := c, aaguids := {g} })])
      else
        fromIterGo digest rest (updateAaguids kid g cas)

/-- `AttestationCaList::from_iter`: build the registry from a stream of
`(certificate, aaguid)` pairs, starting from the empty map. -/
def fromIterCaList {Cert Kid : Type} [DecidableEq Kid] (digest : Cert → Option Kid)
    (pairs : List (Cert × Nat)) : Option (List (Kid × AttestationCa Cert)) :=
  fromIterGo digest pairs []

theorem mem_aaguidSet_iff (fds : List FidoDev) (eds : List Device) (a : Nat) :
    a ∈ aaguidSet fds eds ↔
      ((∃ f ∈ fds, f.aaguid = a) ∨ (∃ d ∈ eds, d.aaguid = a)) ∧
        allowedHack a = true := by
  unfold aaguidSet
  rw [(List.perm_insertionSort _ _).mem_iff, List.mem_dedup, List.mem_filter,
    List.mem_append]
  simp [List.mem_map]

theorem processAaguid_both (fds : List FidoDev) (eds : List Device) (a : Nat)
    (fdev : FidoDev) (hf : feedFor fds a = [fdev]) (hne : enrichFor eds a ≠ []) :
    processAaguid fds eds a = .ok ((enrichFor eds a).map (mergeRecord fdev)) := by
  cases he : enrichFor eds a with
  | nil => exact absurd he hne
  | cons e es => simp [processAaguid, hf, he]

theorem reconcileAaguids_error (fds : List FidoDev) (eds : List Device)
    (L : List Nat) (a : Nat) (ha : a ∈ L)
    (herr : processAaguid fds eds a = .error ()) :
    reconcileAaguids fds eds L = .error () := by
  induction L with
  | nil => cases ha
  | cons b rest ih =>
    rcases List.mem_cons.mp ha with h | h
    · subst h
      simp [reconcileAaguids, herr]
    · cases hpb : processAaguid fds eds b with
      | error e => cases e; simp [reconcileAaguids, hpb]
      | ok ds => simp [reconcileAaguids, hpb, ih h]

/-- C1 (amended with the built-in allow-list): for every AAGUID passing
the hard-coded allow-list that is present in both indexes with a unique
feed entry, each local record under it yields exactly one EnrichedDevice
at its own position, whose aaguid and display name come from the feed
entry, whose quirks come from the local record, and whose CA list is the
feed entry's attestation root certificate list. -/
theorem c1_extend_sources_identity_from_feed (fds : List FidoDev)
    (eds : List Device) (a : Nat) (fdev : FidoDev) (i : Nat) (edev : Device)
    (hall : allowedHack a = true)
    (hf : feedFor fds a = [fdev])
    (hi : (enrichFor eds a)[i]? = some edev)
    (hx : edev.mds_link = .Extend) :
    a ∈ aaguidSet fds eds ∧
    ∃ out, processAaguid fds eds a = .ok out ∧
      out.length = (enrichFor eds a).length ∧
      out[i]? = some { aaguid := fdev.aaguid
                       display_name := fdev.description
                       quirks := edev.quirks
                       ca := fdev.attestation_root_certificates } := by
  have hfe : fdev ∈ feedFor fds a := by
    rw [hf]; exact List.mem_singleton.mpr rfl
  have hmemf := List.mem_filter.mp hfe
  have hne : enrichFor eds a ≠ [] := by
    intro h
    rw [h] at hi
    simp at hi
  refine ⟨?_, (enrichFor eds a).map (mergeRecord fdev),
    processAaguid_both _ _ _ _ hf hne, by simp, ?_⟩
  · rw [mem_aaguidSet_iff]
    exact ⟨Or.inl ⟨fdev, hmemf.1, by simpa using hmemf.2⟩, hall⟩
  · rw [List.getElem?_map, hi]
    simp [mergeRecord, hx]

/-- C1 witness: a concrete allow-listed AAGUID, one feed entry and one
Extend-linked local record, yielding exactly one merged device. -/
theorem c1_witness :
    ∃ out,
      processAaguid
        [{ aaguid := 0xc39efba6fcf44c3e828bfc4a6115a0ff, description := "Dongle",
           attestation_root_certificates := [7] }]
        [{ aaguid := 0xc39efba6fcf44c3e828bfc4a6115a0ff, mds_link := .Extend,
           display_name := "Local", quirks := {3}, skus := [], images := [] }]
        0xc39efba6fcf44c3e828bfc4a6115a0ff = .ok out ∧
      out.length = 1 ∧
      out[0]? = some { aaguid := 0xc39efba6fcf44c3e828bfc4a6115a0ff
                       display_name := "Dongle"
                       quirks := {3}
                       ca := [7] } := by
  obtain ⟨-, out, h1, h2, h3⟩ :=
    c1_extend_sources_identity_from_feed
      [{ aaguid := 0xc39efba6fcf44c3e828bfc4a6115a0ff, description := "Dongle",
         attestation_root_certificates := [7] }]
      [{ aaguid := 0xc39efba6fcf44c3e828bfc4a6115a0ff, mds_link := .Extend,
         display_name := "Local", quirks := {3}, skus := [], images := [] }]
      0xc39efba6fcf44c3e828bfc4a6115a0ff
      { aaguid := 0xc39efba6fcf44c3e828bfc4a6115a0ff, description := "Dongle",
        attestation_root_certificates := [7] }
      0
      { aaguid := 0xc39efba6fcf44c3e828bfc4a6115a0ff, mds_link := .Extend,
        display_name := "Local", quirks := {3}, skus := [], images := [] }
      (by decide) (by decide) (by decide) (by decide)
  exact ⟨out, h1, by rw [h2]; decide, h3⟩

/-- C1 counterexample: the claim as stated fails on an AAGUID outside
the hard-coded allow-list — both indexes hold it, the feed entry is
unique, the local record is Extend-linked, yet the engine emits no
EnrichedDevice at all. -/
theorem c1_counterexample :
    feedFor [{ aaguid := 0, description := "Dongle",
               attestation_root_certificates := [7] }] 0
      = [{ aaguid := 0, description := "Dongle",
           attestation_root_certificates := [7] }] ∧
    reconcileDevices
      [{ aaguid := 0, description := "Dongle",
         attestation_root_certificates := [7] }]
      [{ aaguid := 0, mds_link := .Extend, display_name := "Local",
         quirks := {3}, skus := [], images := [] }]
      = .ok [] := by decide

/-- C2 (amended with the built-in allow-list): same setting with a
Clone-linked local record — the emitted device takes aaguid and display
name from the local record's own fields, quirks from the local record,
and the CA list from the feed entry. -/
theorem c2_clone_sources_identity_from_local (fds : List FidoDev)
    (eds : List Device) (a : Nat) (fdev : FidoDev) (i : Nat) (edev : Device)
    (hall : allowedHack a = true)
    (hf : feedFor fds a = [fdev])
    (hi : (enrichFor eds a)[i]? = some edev)
    (hx : edev.mds_link = .Clone) :
    a ∈ aaguidSet fds eds ∧
    ∃ out, processAaguid fds eds a = .ok out ∧
      out.length = (enrichFor eds a).length ∧
      out[i]? = some { aaguid := edev.aaguid
                       display_name := edev.display_name
                       quirks := edev.quirks
                       ca := fdev.attestation_root_certificates } := by
  have hfe : fdev ∈ feedFor fds a := by
    rw [hf]; exact List.mem_singleton.mpr rfl
  have hmemf := List.mem_filter.mp hfe
  have hne : enrichFor eds a ≠ [] := by
    intro h
    rw [h] at hi
    simp at hi
  refine ⟨?_, (enrichFor eds a).map (mergeRecord fdev),
    processAaguid_both _ _ _ _ hf hne, by simp, ?_⟩
  · rw [mem_aaguidSet_iff]
    exact ⟨Or.inl ⟨fdev, hmemf.1, by simpa using hmemf.2⟩, hall⟩
  · rw [List.getElem?_map, hi]
    simp [mergeRecord, hx]

/-- C2 witness: a concrete allow-listed AAGUID with a unique feed entry
and one Clone-linked local record. -/
theorem c2_witness :
    ∃ out,
      processAaguid
        [{ aaguid := 0xab32f0c62239afbbc470d2ef4e254db7, description := "Dongle",
           attestation_root_certificates := [8] }]
        [{ aaguid := 0xab32f0c62239afbbc470d2ef4e254db7, mds_link := .Clone,
           display_name := "DongleClone", quirks := {4}, skus := [], images := [] }]
        0xab32f0c62239afbbc470d2ef4e254db7 = .ok out ∧
      out.length = 1 ∧
      out[0]? = some { aaguid := 0xab32f0c62239afbbc470d2ef4e254db7
                       display_name := "DongleClone"
                       quirks := {4}
                       ca := [8] } := by
  obtain ⟨-, out, h1, h2, h3⟩ :=
    c2_clone_sources_identity_from_local
      [{ aaguid := 0xab32f0c62239afbbc470d2ef4e254db7, description := "Dongle",
         attestation_root_certificates := [8] }]
      [{ aaguid := 0xab32f0c62239afbbc470d2ef4e254db7, mds_link := .Clone,
         display_name := "DongleClone", quirks := {4}, skus := [], images := [] }]
      0xab32f0c62239afbbc470d2ef4e254db7
      { aaguid := 0xab32f0c62239afbbc470d2ef4e254db7, description := "Dongle",
        attestation_root_certificates := [8] }
      0
      { aaguid := 0xab32f0c62239afbbc470d2ef4e254db7, mds_link := .Clone,
        display_name := "DongleClone", quirks := {4}, skus := [], images := [] }
      (by decide) (by decide) (by decide) (by decide)
  exact ⟨out, h1, by rw [h2]; decide, h3⟩

/-- C2 counterexample: the claim as stated fails on an AAGUID outside
the hard-coded allow-list — the Clone-linked record produces nothing. -/
theorem c2_counterexample :
    feedFor [{ aaguid := 1, description := "Dongle",
               attestation_root_certificates := [8] }] 1
      = [{ aaguid := 1, description := "Dongle",
           attestation_root_certificates := [8] }] ∧
    reconcileDevices
      [{ aaguid := 1, description := "Dongle",
         attestation_root_certificates := [8] }]
      [{ aaguid := 1, mds_link := .Clone, display_name := "DongleClone",
         quirks := {4}, skus := [], images := [] }]
      = .ok [] := by decide

/-- C3 (amended with the built-in allow-list): if the feed index maps
any AAGUID passing the hard-coded allow-list to more than one entry,
the whole reconciliation fails with the duplicate-feed-AAGUID error and
produces no device list, regardless of the enrichment contents. -/
theorem c3_duplicate_feed_aborts (fds : List FidoDev) (eds : List Device)
    (a : Nat) (hall : allowedHack a = true)
    (hdup : 2 ≤ (feedFor fds a).length) :
    reconcileDevices fds eds = .error () := by
  obtain ⟨f₁, f₂, t, hfe⟩ : ∃ f₁ f₂ t, feedFor fds a = f₁ :: f₂ :: t := by
    match hm : feedFor fds a, hdup with
    | f₁ :: f₂ :: t, _ => exact ⟨f₁, f₂, t, rfl⟩
  have hmem : a ∈ aaguidSet fds eds := by
    have hf₁ : f₁ ∈ feedFor fds a := by rw [hfe]; exact List.mem_cons_self _ _
    have hmemf := List.mem_filter.mp hf₁
    rw [mem_aaguidSet_iff]
    exact ⟨Or.inl ⟨f₁, hmemf.1, by simpa using hmemf.2⟩, hall⟩
  have herr : processAaguid fds eds a = .error () := by
    cases he : enrichFor eds a with
    | nil => simp [processAaguid, hfe, he]
    | cons e es => simp [processAaguid, hfe, he]
  exact reconcileAaguids_error fds eds _ a hmem herr

/-- C3 witness: a concrete allow-listed AAGUID duplicated in the feed
makes the whole reconciliation fail. -/
theorem c3_witness :
    reconcileDevices
      [{ aaguid := 0x833b721aff5f4d00bb2ebdda3ec01e29, description := "TokA",
         attestation_root_certificates := [5] },
       { aaguid := 0x833b721aff5f4d00bb2ebdda3ec01e29, description := "TokB",
         attestation_root_certificates := [6] }]
      [] = .error () :=
  c3_duplicate_feed_aborts _ _ 0x833b721aff5f4d00bb2ebdda3ec01e29
    (by decide) (by decide)

/-- C3 counterexample: the claim as stated fails when the duplicated
AAGUID falls outside the hard-coded allow-list — the feed maps AAGUID 2
to two entries, yet reconciliation succeeds (with empty output) instead
of failing. -/
theorem c3_counterexample :
    2 ≤ (feedFor
      [{ aaguid := 2, description := "TokA", attestation_root_certificates := [5] },
       { aaguid := 2, description := "TokB", attestation_root_certificates := [6] }]
      2).length ∧
    reconcileDevices
      [{ aaguid := 2, description := "TokA", attestation_root_certificates := [5] },
       { aaguid := 2, description := "TokB", attestation_root_certificates := [6] }]
      [] = .ok [] := by decide

/-- C4: the engine does bake in a fixed AAGUID restriction — a feed
device under AAGUID 3 (not one of the four hard-coded UUIDs) is
silently dropped from the key union, and the run yields an empty device
list instead of classifying it. -/
theorem c4_hardcoded_filter_drops_aaguid :
    allowedHack 3 = false ∧
    reconcileDevices
      [{ aaguid := 3, description := "Token", attestation_root_certificates := [5] }]
      [] = .ok [] := by decide

/-- C7: for every enriched device list and every enumeration order of
the CA working map (the `HashMap` drained by `into_iter`, constrained
only to be a permutation of the distinct CAs), the projection has
exactly one Authority per distinct CA occurring in any device's CA
list and no other; each Authority's SKU list length is the number of
(device, CA-occurrence) pairs for its CA (repeats kept); and a device
with an empty CA list contributes nothing. -/
theorem c7_authority_projection (devs : List EnrichedDevice) (order : List Nat)
    (ho : order.Perm (workMapKeys devs)) :
    (∀ auth ∈ intoMds order devs, auth.ca ∈ devs.flatMap (fun d => d.ca)) ∧
    (∀ c, c ∈ devs.flatMap (fun d => d.ca) →
      ((intoMds order devs).filter (fun auth => auth.ca == c)).length = 1) ∧
    (∀ auth ∈ intoMds order devs,
      auth.skus.length = ((devs.map (fun d => d.ca.count auth.ca)).sum)) ∧
    (∀ d devs₁ devs₂, devs = devs₁ ++ d :: devs₂ → d.ca = [] →
      intoMds order devs = intoMds order (devs₁ ++ devs₂)) := by
  refine ⟨?_, ?_, ?_, ?_⟩
  · intro auth hauth
    obtain ⟨c, hc, rfl⟩ := List.mem_map.mp hauth
    have hk : c ∈ workMapKeys devs := ho.mem_iff.mp hc
    simpa [workMapKeys, List.mem_dedup] using hk
  · intro c hc
    have h1 : ((intoMds order devs).filter (fun auth => auth.ca == c)).length
        = List.count c order := by
      rw [intoMds, List.filter_map, List.length_map]
      simp only [List.count, List.countP_eq_length_filter]
      rfl
    rw [h1, ho.count_eq c]
    exact List.count_eq_one_of_mem (List.nodup_dedup _)
      (by simpa [workMapKeys, List.mem_dedup] using hc)
  · intro auth hauth
    obtain ⟨c, hc, rfl⟩ := List.mem_map.mp hauth
    show (skusFor devs c).length = _
    rw [skusFor, List.length_flatMap]
    congr 1
    apply List.map_congr_left
    intro d hd
    simp [Function.comp, List.count, List.countP_eq_length_filter]
  · intro d devs₁ devs₂ hsplit hca
    subst hsplit
    unfold intoMds
    apply List.map_congr_left
    intro c hc
    congr 1
    simp [skusFor, List.flatMap_append, List.flatMap_cons, hca]

/-- C7 witness: two devices over CAs 1 and 2, enumerated as [2, 1];
CA 2 gets exactly one Authority whose SKU list has the two referencing
occurrences. -/
theorem c7_witness :
    ((intoMds [2, 1]
        [{ aaguid := 0, display_name := "A", quirks := ∅, ca := [1, 2] },
         { aaguid := 5, display_name := "B", quirks := ∅, ca := [2] }]).filter
      (fun auth => auth.ca == 2)).length = 1 := by
  have h :=
    c7_authority_projection
      [{ aaguid := 0, display_name := "A", quirks := ∅, ca := [1, 2] },
       { aaguid := 5, display_name := "B", quirks := ∅, ca := [2] }]
      [2, 1] (by decide)
  exact h.2.1 2 (by decide)

/-- C9 (amended): the catalog content is a function of the input — any
two enumeration orders of the CA key set give catalogs that are
permutations of each other, and every Authority's SKU list is
determined by the device list alone — but the Authority sequence order
is not fixed. -/
theorem c9_catalog_deterministic_up_to_authority_order
    (devs : List EnrichedDevice) (o₁ o₂ : List Nat)
    (h₁ : o₁.Perm (workMapKeys devs)) (h₂ : o₂.Perm (workMapKeys devs)) :
    (intoMds o₁ devs).Perm (intoMds o₂ devs) ∧
    (∀ auth ∈ intoMds o₁ devs, auth.skus = skusFor devs auth.ca) := by
  constructor
  · exact (h₁.trans h₂.symm).map _
  · intro auth hauth
    obtain ⟨c, hc, rfl⟩ := List.mem_map.mp hauth
    rfl

/-- C9 witness: two concrete enumeration orders of the same working map
give catalogs that are permutations of each other. -/
theorem c9_witness :
    (intoMds [1, 2]
      [{ aaguid := 0, display_name := "W", quirks := ∅, ca := [1, 2] }]).Perm
    (intoMds [2, 1]
      [{ aaguid := 0, display_name := "W", quirks := ∅, ca := [1, 2] }]) :=
  (c9_catalog_deterministic_up_to_authority_order
    [{ aaguid := 0, display_name := "W", quirks := ∅, ca := [1, 2] }]
    [1, 2] [2, 1] (by decide) (by decide)).1

/-- C9 counterexample: two valid enumeration orders of the `HashMap`
key set produce different Authority sequences for the same input, so
the projected catalog is not identical across runs as the claim
states. -/
theorem c9_counterexample :
    [1, 2].Perm (workMapKeys
      [{ aaguid := 0, display_name := "A", quirks := ∅, ca := [1, 2] }]) ∧
    [2, 1].Perm (workMapKeys
      [{ aaguid := 0, display_name := "A", quirks := ∅, ca := [1, 2] }]) ∧
    intoMds [1, 2] [{ aaguid := 0, display_name := "A", quirks := ∅, ca := [1, 2] }] ≠
      intoMds [2, 1] [{ aaguid := 0, display_name := "A", quirks := ∅, ca := [1, 2] }] := by
  decide

theorem unionQ_eq_empty (a : Nat) (devs : List Device)
    (h : ∀ d ∈ devs, d.aaguid = a → d.quirks = ∅) : unionQ a devs = ∅ := by
  induction devs with
  | nil => rfl
  | cons d rest ih =>
    have hd := h d (List.mem_cons_self _ _)
    rw [unionQ, ih (fun x hx => h x (List.mem_cons_of_mem _ hx))]
    by_cases hda : d.aaguid = a
    · simp [hda, hd hda]
    · simp [hda]

theorem unionQ_filter (a : Nat) (devs : List Device) :
    unionQ a (devs.filter (fun d => decide (d.quirks ≠ ∅))) = unionQ a devs := by
  induction devs with
  | nil => rfl
  | cons d rest ih =>
    by_cases hd : d.quirks = ∅
    · rw [List.filter_cons_of_neg (by simp [hd]), ih, unionQ]
      by_cases hda : d.aaguid = a
      · simp [hda, hd]
      · simp [hda]
    · rw [List.filter_cons_of_pos (by simp [hd]), unionQ, unionQ, ih]

theorem quirksRun_eq (devs : List Device) :
    ∀ (m : Nat → Option (Finset Nat)) (a : Nat),
    quirksRun devs m a =
      if ∀ d ∈ devs, d.aaguid = a → d.quirks = ∅ then m a
      else some ((m a).getD ∅ ∪ unionQ a devs) := by
  induction devs with
  | nil =>
    intro m a
    simp [quirksRun]
  | cons d rest ih =>
    intro m a
    rw [quirksRun]
    by_cases hd : d.quirks = ∅
    · rw [if_pos hd, ih]
      by_cases hall : ∀ x ∈ rest, x.aaguid = a → x.quirks = ∅
      · rw [if_pos hall, if_pos]
        intro x hx
        rcases List.mem_cons.mp hx with h | h
        · subst h; exact fun _ => hd
        · exact hall x h
      · rw [if_neg hall, if_neg]
        · congr 2
          rw [unionQ]
          by_cases hda : d.aaguid = a
          · simp [hda, hd]
          · simp [hda]
        · intro hcon
          exact hall (fun x hx => hcon x (List.mem_cons_of_mem _ hx))
    · rw [if_neg hd, ih]
      by_cases hda : d.aaguid = a
      · have hm : (if a = d.aaguid
            then some (((m d.aaguid).getD ∅) ∪ d.quirks) else m a)
            = some (((m a).getD ∅) ∪ d.quirks) := by
          simp [hda]
        have hconsf : ¬ ∀ x ∈ d :: rest, x.aaguid = a → x.quirks = ∅ := by
          intro hcon
          exact hd (hcon d (List.mem_cons_self _ _) hda)
        rw [if_neg hconsf]
        by_cases hall : ∀ x ∈ rest, x.aaguid = a → x.quirks = ∅
        · rw [if_pos hall, hm]
          rw [unionQ, unionQ_eq_empty a rest hall]
          simp [hda]
        · rw [if_neg hall, hm]
          rw [unionQ]
          simp [hda, Finset.union_assoc]
      · have hm : (if a = d.aaguid
            then some (((m d.aaguid).getD ∅) ∪ d.quirks) else m a) = m a := by
          rw [if_neg (fun h => hda h.symm)]
        by_cases hall : ∀ x ∈ rest, x.aaguid = a → x.quirks = ∅
        · rw [if_pos hall, hm, if_pos]
          intro x hx
          rcases List.mem_cons.mp hx with h | h
          · subst h; exact fun hh => absurd hh hda
          · exact hall x h
        · rw [if_neg hall, hm, if_neg]
          · rw [unionQ]
            simp [hda]
          · intro hcon
            exact hall (fun x hx => hcon x (List.mem_cons_of_mem _ hx))

/-- C8: the quirks projection maps an AAGUID to an entry exactly when
some device with that AAGUID has a non-empty quirk set (devices with
empty quirk sets never create a key), and a present entry is the union
of the quirk sets of the non-empty-quirk devices sharing the AAGUID. -/
theorem c8_quirk_projection (devs : List Device) (a : Nat) :
    quirksGet devs a =
      if ∀ d ∈ devs, d.aaguid = a → d.quirks = ∅ then none
      else some (unionQ a (devs.filter (fun d => decide (d.quirks ≠ ∅)))) := by
  rw [quirksGet, quirksRun_eq, unionQ_filter]
  by_cases hall : ∀ d ∈ devs, d.aaguid = a → d.quirks = ∅
  · rw [if_pos hall, if_pos hall]
  · rw [if_neg hall, if_neg hall]
    simp

/-- C8 witness: a device with empty quirks creates no entry under its
AAGUID, and two non-empty-quirk devices under one AAGUID union their
quirks. -/
theorem c8_witness :
    quirksGet
      [{ aaguid := 8, mds_link := .Extend, display_name := "Q", quirks := ∅,
         skus := [], images := [] },
       { aaguid := 9, mds_link := .Extend, display_name := "R", quirks := {1},
         skus := [], images := [] },
       { aaguid := 9, mds_link := .Clone, display_name := "S", quirks := {2},
         skus := [], images := [] }] 8 = none ∧
    quirksGet
      [{ aaguid := 8, mds_link := .Extend, display_name := "Q", quirks := ∅,
         skus := [], images := [] },
       { aaguid := 9, mds_link := .Extend, display_name := "R", quirks := {1},
         skus := [], images := [] },
       { aaguid := 9, mds_link := .Clone, display_name := "S", quirks := {2},
         skus := [], images := [] }] 9 = some {1, 2} := by
  constructor
  · rw [c8_quirk_projection]
    decide
  · rw [c8_quirk_projection]
    decide

theorem mapInsert_spec {Kid α : Type} [DecidableEq Kid] (k : Kid) (v : α)
    (l : List (Kid × α)) :
    (mapInsert k v l).1 = lookupK k l ∧
    lookupK k (mapInsert k v l).2 = some v ∧
    (∀ k₁, k₁ ≠ k → lookupK k₁ (mapInsert k v l).2 = lookupK k₁ l) := by
  induction l with
  | nil =>
    refine ⟨rfl, by simp [mapInsert, lookupK], ?_⟩
    intro k₁ hk
    simp [mapInsert, lookupK, hk]
  | cons p rest ih =>
    obtain ⟨k₂, v₂⟩ := p
    by_cases hk : k = k₂
    · subst hk
      refine ⟨by simp [mapInsert, lookupK], by simp [mapInsert, lookupK], ?_⟩
      intro k₁ hk₁
      simp [mapInsert, lookupK, hk₁]
    · refine ⟨?_, ?_, ?_⟩
      · simp [mapInsert, lookupK, hk, ih.1]
      · simp [mapInsert, lookupK, hk, ih.2.1]
      · intro k₁ hk₁
        by_cases hk₂ : k₁ = k₂
        · subst hk₂
          simp [mapInsert, lookupK, hk]
        · simp [mapInsert, lookupK, hk, hk₂, ih.2.2 k₁ hk₁]

/-- C5: register computes the certificate's digest, stores the CA under
that digest replacing any pre-existing entry, returns the displaced
previous entry (None otherwise), leaves every other key untouched, and
performs no allow-list merge — the stored value is the inserted CA
itself. -/
theorem c5_register_replaces (Cert Kid : Type) [DecidableEq Kid]
    (digest : Cert → Option Kid) (cas : List (Kid × AttestationCa Cert))
    (att_ca : AttestationCa Cert) (kid : Kid)
    (h : digest att_ca.ca = some kid) :
    ∃ old newCas,
      registerCa digest cas att_ca = .ok (old, newCas) ∧
      old = lookupK kid cas ∧
      lookupK kid newCas = some att_ca ∧
      ∀ k, k ≠ kid → lookupK k newCas = lookupK k cas := by
  have hm := mapInsert_spec kid att_ca cas
  exact ⟨(mapInsert kid att_ca cas).1, (mapInsert kid att_ca cas).2,
    by simp [registerCa, AttestationCa.get_kid, h], hm.1, hm.2.1, hm.2.2⟩

/-- C5 witness: registering a CA whose digest collides with a stored
entry replaces the entry and returns the displaced one. -/
theorem c5_witness :
    ∃ old newCas,
      registerCa (fun c : Nat => some c)
        [(5, { ca := 5, aaguids := {1} })] { ca := 5, aaguids := {2} }
        = .ok (old, newCas) ∧
      old = lookupK 5 [(5, ({ ca := 5, aaguids := {1} } : AttestationCa Nat))] ∧
      lookupK 5 newCas = some { ca := 5, aaguids := {2} } ∧
      ∀ k, k ≠ 5 →
        lookupK k newCas
          = lookupK k [(5, ({ ca := 5, aaguids := {1} } : AttestationCa Nat))] :=
  c5_register_replaces Nat Nat (fun c => some c)
    [(5, { ca := 5, aaguids := {1} })] { ca := 5, aaguids := {2} } 5 rfl

theorem lookupK_append {Kid α : Type} [DecidableEq Kid] (k : Kid)
    (l₁ l₂ : List (Kid × α)) :
    lookupK k (l₁ ++ l₂) =
      match lookupK k l₁ with
      | some v => some v
      | none => lookupK k l₂ := by
  induction l₁ with
  | nil => rfl
  | cons p rest ih =>
    obtain ⟨k₁, v₁⟩ := p
    by_cases hk : k = k₁ <;> simp [lookupK, hk, ih]

theorem lookupK_updateAaguids {Cert Kid : Type} [DecidableEq Kid] (kid : Kid)
    (g : Nat) (l : List (Kid × AttestationCa Cert)) (k : Kid) :
    lookupK k (updateAaguids kid g l) =
      if k = kid then
        (lookupK kid l).map (fun v => { ca := v.ca, aaguids := insert g v.aaguids })
      else lookupK k l := by
  induction l with
  | nil => by_cases hk : k = kid <;> simp [updateAaguids, lookupK, hk]
  | cons p rest ih =>
    obtain ⟨k₁, v₁⟩ := p
    by_cases h₁ : kid = k₁
    · subst h₁
      by_cases hk : k = kid <;> simp [updateAaguids, lookupK, hk]
    · by_cases hk : k = k₁
      · subst hk
        have hkk : ¬ k = kid := fun hh => h₁ (hh ▸ rfl)
        simp [updateAaguids, lookupK, h₁, hkk]
      · simp [updateAaguids, lookupK, h₁, hk, ih]

theorem fromIterGo_lookup {Cert Kid : Type} [DecidableEq Kid]
    (digest : Cert → Option Kid) (pairs : List (Cert × Nat)) :
    ∀ acc, (∀ p ∈ pairs, (digest p.1).isSome) →
    ∃ m, fromIterGo digest pairs acc = some m ∧
      ∀ k : Kid,
        lookupK k m =
          match lookupK k acc,
            pairs.filter (fun p => decide (digest p.1 = some k)) with
          | none, [] => none
          | none, (c, _) :: _ =>
            some { ca := c
                   aaguids := ((pairs.filter
                     (fun p => decide (digest p.1 = some k))).map
                       (fun p => p.2)).toFinset }
          | some v, _ =>
            some { ca := v.ca
                   aaguids := v.aaguids ∪ ((pairs.filter
                     (fun p => decide (digest p.1 = some k))).map
                       (fun p => p.2)).toFinset } := by
  induction pairs with
  | nil =>
    intro acc _
    refine ⟨acc, rfl, fun k => ?_⟩
    cases hl : lookupK k acc <;> simp [hl]
  | cons q rest ih =>
    intro acc hall
    obtain ⟨c, g⟩ := q
    obtain ⟨kid, hkid⟩ : ∃ kid, digest c = some kid := by
      have := hall (c, g) (List.mem_cons_self _ _)
      exact Option.isSome_iff_exists.mp this
    have hrest : ∀ p ∈ rest, (digest p.1).isSome :=
      fun p hp => hall p (List.mem_cons_of_mem _ hp)
    by_cases hl : lookupK kid acc = none
    · obtain ⟨m, hm, hk⟩ := ih (acc ++ [(kid, { ca := c, aaguids := {g} })]) hrest
      refine ⟨m, ?_, fun k => ?_⟩
      · simp only [fromIterGo, hkid]
        rw [if_pos (by simp [hl])]
        exact hm
      · have hinv := hk k
        by_cases hkk : k = kid
        · subst hkk
          have hacc : lookupK k (acc ++ [(k, { ca := c, aaguids := ({g} : Finset Nat) })])
              = some { ca := c, aaguids := ({g} : Finset Nat) } := by
            rw [lookupK_append, hl]
            simp [lookupK]
          rw [hacc] at hinv
          have hf : List.filter (fun p => decide (digest p.1 = some k)) ((c, g) :: rest)
              = (c, g) :: List.filter (fun p => decide (digest p.1 = some k)) rest := by
            simp [List.filter_cons, hkid]
          rw [hinv, hl, hf]
          simp [Finset.insert_eq]
        · have hacc : lookupK k (acc ++ [(kid, { ca := c, aaguids := ({g} : Finset Nat) })])
              = lookupK k acc := by
            rw [lookupK_append]
            cases hka : lookupK k acc <;> simp [lookupK, hkk]
          rw [hacc] at hinv
          have hf : List.filter (fun p => decide (digest p.1 = some k)) ((c, g) :: rest)
              = List.filter (fun p => decide (digest p.1 = some k)) rest := by
            simp [List.filter_cons, hkid]
            intro hcon
            exact absurd hcon.symm hkk
          rw [hinv, hf]
    · obtain ⟨v₀, hv₀⟩ : ∃ v₀, lookupK kid acc = some v₀ := by
        cases hv : lookupK kid acc with
        | none => exact absurd hv hl
        | some v => exact ⟨v, rfl⟩
      obtain ⟨m, hm, hk⟩ := ih (updateAaguids kid g acc) hrest
      refine ⟨m, ?_, fun k => ?_⟩
      · simp only [fromIterGo, hkid]
        rw [if_neg (by simp [hv₀])]
        exact hm
      · have hinv := hk k
        by_cases hkk : k = kid
        · subst hkk
          have hacc : lookupK k (updateAaguids k g acc)
              = some { ca := v₀.ca, aaguids := insert g v₀.aaguids } := by
            rw [lookupK_updateAaguids, if_pos rfl, hv₀]
            rfl
          rw [hacc] at hinv
          have hf : List.filter (fun p => decide (digest p.1 = some k)) ((c, g) :: rest)
              = (c, g) :: List.filter (fun p => decide (digest p.1 = some k)) rest := by
            simp [List.filter_cons, hkid]
          rw [hinv, hv₀, hf]
          simp [Finset.insert_union, Finset.union_insert]
        · have hacc : lookupK k (updateAaguids kid g acc) = lookupK k acc := by
            rw [lookupK_updateAaguids, if_neg hkk]
          rw [hacc] at hinv
          have hf : List.filter (fun p => decide (digest p.1 = some k)) ((c, g) :: rest)
              = List.filter (fun p => decide (digest p.1 = some k)) rest := by
            simp [List.filter_cons, hkid]
            intro hcon
            exact absurd hcon.symm hkk
          rw [hinv, hf]

/-- C6: building the registry from a stream of (certificate, aaguid)
pairs that all digest successfully yields, for each digest, an entry
whose certificate is the first certificate seen with that digest and
whose allow-list is exactly the set of all AAGUIDs paired with that
digest anywhere in the stream; a digest never seen maps to nothing. -/
theorem c6_stream_merges_first_cert_wins (Cert Kid : Type) [DecidableEq Kid]
    (digest : Cert → Option Kid) (pairs : List (Cert × Nat))
    (h : ∀ p ∈ pairs, (digest p.1).isSome) :
    ∃ m, fromIterCaList digest pairs = some m ∧
      ∀ k : Kid,
        lookupK k m =
          match pairs.filter (fun p => decide (digest p.1 = some k)) with
          | [] => none
          | (c, _) :: _ =>
            some { ca := c
                   aaguids := ((pairs.filter
                     (fun p => decide (digest p.1 = some k))).map
                       (fun p => p.2)).toFinset } := by
  obtain ⟨m, hm, hk⟩ := fromIterGo_lookup digest pairs [] h
  refine ⟨m, hm, fun k => ?_⟩
  have hinv := hk k
  simp only [lookupK] at hinv
  cases hf : pairs.filter (fun p => decide (digest p.1 = some k)) with
  | nil => rw [hf] at hinv; exact hinv
  | cons q t =>
    obtain ⟨c, g⟩ := q
    rw [hf] at hinv
    exact hinv

/-- C6 witness: a concrete stream with a repeated digest — the first
certificate is kept and both AAGUIDs land in the allow-list. -/
theorem c6_witness :
    ∃ m, fromIterCaList (fun c : Nat => some c) [(5, 10), (5, 11), (6, 12)]
        = some m ∧
      lookupK 5 m = some { ca := 5, aaguids := ({10, 11} : Finset Nat) } := by
  obtain ⟨m, hm, hk⟩ := c6_stream_merges_first_cert_wins Nat Nat
    (fun c => some c) [(5, 10), (5, 11), (6, 12)] (by decide)
  refine ⟨m, hm, ?_⟩
  rw [hk 5]
  decide

theorem fromIterGo_none {Cert Kid : Type} [DecidableEq Kid]
    (digest : Cert → Option Kid) (pairs : List (Cert × Nat)) (c : Cert) (g : Nat)
    (hmem : (c, g) ∈ pairs) (hfail : digest c = none) :
    ∀ acc, fromIterGo digest pairs acc = none := by
  induction pairs with
  | nil => cases hmem
  | cons q rest ih =>
    intro acc
    obtain ⟨c₁, g₁⟩ := q
    cases hd : digest c₁ with
    | none => simp only [fromIterGo, hd]
    | some kid =>
      rcases List.mem_cons.mp hmem with h | h
      · have h1 : c₁ = c := (congrArg Prod.fst h).symm
        rw [h1, hfail] at hd
        cases hd
      · simp only [fromIterGo, hd]
        split
        · exact ih h _
        · exact ih h _

/-- C10: the stream construction is not total — if any certificate in
the stream fails to digest, building the registry panics (modelled as
`none`), whereas `insert` on a CA with the same failing certificate
surfaces the digest failure as a recoverable error result. -/
theorem c10_stream_panics_insert_errors (Cert Kid : Type) [DecidableEq Kid]
    (digest : Cert → Option Kid) (pairs : List (Cert × Nat)) (c : Cert) (g : Nat)
    (hmem : (c, g) ∈ pairs) (hfail : digest c = none) :
    fromIterCaList digest pairs = (none : Option (List (Kid × AttestationCa Cert))) ∧
    ∀ (cas : List (Kid × AttestationCa Cert)) (aas : Finset Nat),
      registerCa digest cas { ca := c, aaguids := aas } = .error () := by
  refine ⟨fromIterGo_none digest pairs c g hmem hfail [], ?_⟩
  intro cas aas
  simp [registerCa, AttestationCa.get_kid, hfail]

/-- C10 witness: a stream containing one certificate whose digest
fails — the stream construction aborts while insert returns an error. -/
theorem c10_witness :
    fromIterCaList (fun c : Nat => if c = 0 then none else some c) [(1, 5), (0, 6)]
      = (none : Option (List (Nat × AttestationCa Nat))) ∧
    registerCa (fun c : Nat => if c = 0 then none else some c)
      ([] : List (Nat × AttestationCa Nat)) { ca := 0, aaguids := ∅ }
      = .error () := by
  obtain ⟨h1, h2⟩ := c10_stream_panics_insert_errors Nat Nat
    (fun c => if c = 0 then none else some c) [(1, 5), (0, 6)] 0 6
    (by decide) (by decide)
  exact ⟨h1, h2 [] ∅⟩
